import Mathlib

/-!
Verification of the simdnbt borrowed NBT codec (`src/borrow/mod.rs`,
`src/mutf8.rs`).  Bytes are modelled as `Fin 256`, byte buffers as
`List Byte`, cursor-based readers as functions `List Byte →
Except NbtError (α × List Byte)` returning the value together with the
unconsumed suffix, and `Vec<u8>` writers as functions producing the list of
bytes they append.  Parts of the crate that only exist as callees of the
files above (`common.rs`, `compound.rs`, `list.rs`, `raw_list.rs`, the
`mutf8` codec crate) are modelled from the specification and marked as such
in their doc comments.
-/

/-- A byte, as in the Rust `u8`. -/
abbrev Byte := Fin 256

/-- Build a byte from a natural number, reducing mod 256 (Rust `as u8`). -/
def byt (n : Nat) : Byte := ⟨n % 256, Nat.mod_lt _ (by norm_num)⟩

/-- Modelled from the spec: the tag-id constants of the missing `common.rs`
(spec section 6: byte=1, short=2, int=3, long=4, float=5, double=6,
byte_array=7, string=8, list=9, compound=10, int_array=11, long_array=12;
end=0). -/
def END_ID : Byte := 0

/-- Modelled from the spec: see `END_ID`. -/
def BYTE_ID : Byte := 1

/-- Modelled from the spec: see `END_ID`. -/
def SHORT_ID : Byte := 2

/-- Modelled from the spec: see `END_ID`. -/
def INT_ID : Byte := 3

/-- Modelled from the spec: see `END_ID`. -/
def LONG_ID : Byte := 4

/-- Modelled from the spec: see `END_ID`. -/
def FLOAT_ID : Byte := 5

/-- Modelled from the spec: see `END_ID`. -/
def DOUBLE_ID : Byte := 6

/-- Modelled from the spec: see `END_ID`. -/
def BYTE_ARRAY_ID : Byte := 7

/-- Modelled from the spec: see `END_ID`. -/
def STRING_ID : Byte := 8

/-- Modelled from the spec: see `END_ID`. -/
def LIST_ID : Byte := 9

/-- Modelled from the spec: see `END_ID`. -/
def COMPOUND_ID : Byte := 10

/-- Modelled from the spec: see `END_ID`. -/
def INT_ARRAY_ID : Byte := 11

/-- Modelled from the spec: see `END_ID`. -/
def LONG_ARRAY_ID : Byte := 12

/-- Modelled from the spec: the recursion bound of the missing `common.rs`
(spec section 4.4: "a fixed maximum ... e.g. on the order of 512"). -/
def MAX_DEPTH : Nat := 512

/-- The decode error taxonomy (spec section 7; `Error` in the crate). -/
inductive NbtError where
  | UnexpectedEof : NbtError
  | InvalidRootType : Byte → NbtError
  | InvalidListType : Byte → NbtError
  | UnknownTagId : Byte → NbtError
  | MaxDepthExceeded : NbtError
  | MalformedString : NbtError
deriving DecidableEq, Repr

/-- Big-endian value of a byte list. -/
def beBytesToNat : List Byte → Nat
  | [] => 0
  | b :: rest => b.val * 256 ^ rest.length + beBytesToNat rest

/-- The `k` big-endian bytes of a natural number (low `8*k` bits). -/
def natToBeBytes : Nat → Nat → List Byte
  | 0, _ => []
  | k + 1, n => byt (n / 256 ^ k) :: natToBeBytes k n

theorem beBytesToNat_lt (bs : List Byte) : beBytesToNat bs < 256 ^ bs.length := by
  induction bs with
  | nil => simp [beBytesToNat]
  | cons b rest ih =>
    simp only [beBytesToNat, List.length_cons, pow_succ]
    have hb : b.val + 1 ≤ 256 := b.isLt
    calc b.val * 256 ^ rest.length + beBytesToNat rest
        < b.val * 256 ^ rest.length + 256 ^ rest.length := by omega
      _ = (b.val + 1) * 256 ^ rest.length := by ring
      _ ≤ 256 * 256 ^ rest.length := by
          exact Nat.mul_le_mul_right _ hb
      _ = 256 ^ rest.length * 256 := by ring

theorem natToBeBytes_add_mul (k : Nat) :
    ∀ c n, natToBeBytes k (c * 256 ^ k + n) = natToBeBytes k n := by
  induction k with
  | zero => intro c n; rfl
  | succ j ih =>
    intro c n
    have h1 : c * 256 ^ (j + 1) + n = (c * 256) * 256 ^ j + n := by ring_nf
    simp only [natToBeBytes, byt, List.cons.injEq]
    refine ⟨Fin.ext ?_, ?_⟩
    · show (c * 256 ^ (j + 1) + n) / 256 ^ j % 256 = n / 256 ^ j % 256
      rw [h1, show c * 256 * 256 ^ j + n = 256 ^ j * (c * 256) + n by ring,
        Nat.mul_add_div (by positivity : (0:Nat) < 256 ^ j)]
      omega
    · rw [h1]
      exact ih (c * 256) n

theorem natToBeBytes_beBytesToNat (bs : List Byte) :
    natToBeBytes bs.length (beBytesToNat bs) = bs := by
  induction bs with
  | nil => rfl
  | cons b rest ih =>
    simp only [List.length_cons, beBytesToNat, natToBeBytes, List.cons.injEq]
    have hrest := beBytesToNat_lt rest
    refine ⟨?_, ?_⟩
    · have hdiv : (b.val * 256 ^ rest.length + beBytesToNat rest) / 256 ^ rest.length
          = b.val := by
        rw [show b.val * 256 ^ rest.length + beBytesToNat rest
            = 256 ^ rest.length * b.val + beBytesToNat rest by ring,
          Nat.mul_add_div (by positivity : (0:Nat) < 256 ^ rest.length),
          Nat.div_eq_of_lt hrest, Nat.add_zero]
      simp only [byt, hdiv]
      exact Fin.ext (by simp [Nat.mod_eq_of_lt b.isLt])
    · rw [natToBeBytes_add_mul rest.length b.val (beBytesToNat rest)]
      exact ih

/-- The result of a cursor-based read: the value and the unconsumed suffix
of the input (the Rust code advances a `Cursor` over the byte slice). -/
abbrev ReadResult (α : Type) := Except NbtError (α × List Byte)

/-- `read_u8` (from `byteorder`): one byte, or `UnexpectedEof`. -/
def read_u8 : List Byte → ReadResult Byte
  | [] => .error .UnexpectedEof
  | b :: rest => .ok (b, rest)

/-- Take exactly `k` bytes from the front of the input, or `UnexpectedEof`
when fewer remain (the cursor-slice reads of the crate). -/
def readExact (k : Nat) (input : List Byte) : ReadResult (List Byte) :=
  if k ≤ input.length then .ok (input.take k, input.drop k) else .error .UnexpectedEof

/-- Big-endian `u16` read (used for string lengths). -/
def read_u16 (input : List Byte) : ReadResult Nat :=
  match readExact 2 input with
  | .ok (bs, rest) => .ok (beBytesToNat bs, rest)
  | .error e => .error e

/-- Modelled from the spec: `read_u32` of the missing `common.rs`
(big-endian 4-byte read, spec section 2 component 2). -/
def read_u32 (input : List Byte) : ReadResult Nat :=
  match readExact 4 input with
  | .ok (bs, rest) => .ok (beBytesToNat bs, rest)
  | .error e => .error e

/-- Big-endian `u64` read (double payloads). -/
def read_u64 (input : List Byte) : ReadResult Nat :=
  match readExact 8 input with
  | .ok (bs, rest) => .ok (beBytesToNat bs, rest)
  | .error e => .error e

/-- Two's-complement reading of an unsigned `bits`-bit value (the `iN`
reads of `byteorder` used for scalar payloads). -/
def toSigned (bits : Nat) (u : Nat) : Int :=
  if 2 ^ (bits - 1) ≤ u then (u : Int) - 2 ^ bits else (u : Int)

/-- Read a `k`-byte big-endian signed integer. -/
def readSigned (k : Nat) (input : List Byte) : ReadResult Int :=
  match readExact k input with
  | .ok (bs, rest) => .ok (toSigned (8 * k) (beBytesToNat bs), rest)
  | .error e => .error e

/-- Modelled from the spec: `read_string` of the missing `common.rs` —
`[len:u16][bytes:len]` (spec section 6), the bytes borrowed as an
`Mutf8Str` view, which we model as the byte list itself. -/
def read_string (input : List Byte) : ReadResult (List Byte) :=
  match read_u16 input with
  | .ok (len, rest) => readExact len rest
  | .error e => .error e

/-- Bytes appended by a big-endian `u16` write. -/
def writeU16 (n : Nat) : List Byte := natToBeBytes 2 n

/-- Bytes appended by a big-endian `u32` write. -/
def writeU32 (n : Nat) : List Byte := natToBeBytes 4 n

/-- Bytes appended by a `k`-byte big-endian signed-integer write
(two's complement, as the `iN` writes of `byteorder`). -/
def writeSigned (k : Nat) (v : Int) : List Byte :=
  natToBeBytes k (v % (2 ^ (8 * k))).toNat

/-- Modelled from the spec: `write_string` of the missing `common.rs` —
the `u16` byte length followed by the bytes (spec section 6; the Rust
`as u16` length cast truncates, which `natToBeBytes 2` reproduces). -/
def write_string (s : List Byte) : List Byte := writeU16 s.length ++ s

theorem readExact_append (k : Nat) (input bs rest : List Byte)
    (h : readExact k input = .ok (bs, rest)) :
    bs ++ rest = input ∧ bs.length = k := by
  unfold readExact at h
  split at h
  · rename_i hk
    injection h with h'
    injection h' with h1 h2
    subst h1; subst h2
    exact ⟨List.take_append_drop k input, List.length_take_of_le hk⟩
  · exact absurd h (by simp)

theorem read_u16_spec (input : List Byte) (n : Nat) (rest : List Byte)
    (h : read_u16 input = .ok (n, rest)) :
    writeU16 n ++ rest = input ∧ n < 2 ^ 16 := by
  unfold read_u16 at h
  cases he : readExact 2 input with
  | error e => rw [he] at h; exact absurd h (by simp)
  | ok p =>
    obtain ⟨bs, r⟩ := p
    rw [he] at h
    injection h with h'
    injection h' with h1 h2
    subst h1; subst h2
    obtain ⟨happ, hlen⟩ := readExact_append 2 input bs r he
    have : natToBeBytes 2 (beBytesToNat bs) = bs := by
      rw [← hlen]; exact natToBeBytes_beBytesToNat bs
    refine ⟨?_, ?_⟩
    · unfold writeU16; rw [this]; exact happ
    · have := beBytesToNat_lt bs
      rw [hlen] at this
      simpa using this

theorem read_u32_spec (input : List Byte) (n : Nat) (rest : List Byte)
    (h : read_u32 input = .ok (n, rest)) :
    writeU32 n ++ rest = input ∧ n < 2 ^ 32 := by
  unfold read_u32 at h
  cases he : readExact 4 input with
  | error e => rw [he] at h; exact absurd h (by simp)
  | ok p =>
    obtain ⟨bs, r⟩ := p
    rw [he] at h
    injection h with h'
    injection h' with h1 h2
    subst h1; subst h2
    obtain ⟨happ, hlen⟩ := readExact_append 4 input bs r he
    have : natToBeBytes 4 (beBytesToNat bs) = bs := by
      rw [← hlen]; exact natToBeBytes_beBytesToNat bs
    refine ⟨?_, ?_⟩
    · unfold writeU32; rw [this]; exact happ
    · have := beBytesToNat_lt bs
      rw [hlen] at this
      simpa using this

theorem toSigned_emod (k : Nat) (u : Nat) (hu : u < 2 ^ (8 * k)) :
    ((toSigned (8 * k) u) % ((2 : Int) ^ (8 * k))).toNat = u := by
  unfold toSigned
  have hnn : (0 : Int) ≤ (u : Int) := Int.ofNat_nonneg u
  have hlt : (u : Int) < 2 ^ (8 * k) := by exact_mod_cast hu
  split
  · rw [Int.sub_emod, Int.emod_self, sub_zero, Int.emod_emod_of_dvd _ (dvd_refl _),
      Int.emod_eq_of_lt hnn hlt]
    simp
  · rw [Int.emod_eq_of_lt hnn hlt]
    simp

theorem readSigned_spec (k : Nat) (input : List Byte) (v : Int) (rest : List Byte)
    (h : readSigned k input = .ok (v, rest)) :
    writeSigned k v ++ rest = input := by
  unfold readSigned at h
  cases he : readExact k input with
  | error e => rw [he] at h; exact absurd h (by simp)
  | ok p =>
    obtain ⟨bs, r⟩ := p
    rw [he] at h
    injection h with h'
    injection h' with h1 h2
    subst h1; subst h2
    obtain ⟨happ, hlen⟩ := readExact_append k input bs r he
    have hbound : beBytesToNat bs < 2 ^ (8 * k) := by
      have := beBytesToNat_lt bs
      rw [hlen] at this
      calc beBytesToNat bs < 256 ^ k := this
        _ = 2 ^ (8 * k) := by rw [show (256:Nat) = 2 ^ 8 by norm_num, ← pow_mul]
    unfold writeSigned
    rw [toSigned_emod k _ hbound, ← hlen, natToBeBytes_beBytesToNat bs]
    exact happ

theorem read_string_spec (input s rest : List Byte)
    (h : read_string input = .ok (s, rest)) :
    write_string s ++ rest = input := by
  unfold read_string at h
  cases he : read_u16 input with
  | error e => rw [he] at h; exact absurd h (by simp)
  | ok p =>
    obtain ⟨len, r⟩ := p
    rw [he] at h
    obtain ⟨happ1, hlt⟩ := read_u16_spec input len r he
    obtain ⟨happ2, hlen⟩ := readExact_append len r s rest h
    calc write_string s ++ rest
        = writeU16 s.length ++ (s ++ rest) := by
          simp [write_string, List.append_assoc]
      _ = writeU16 len ++ r := by rw [hlen, happ2]
      _ = input := happ1

/-- Does a byte have its high bit set (`byte & 0b10000000 != 0`)? -/
def hasHighBit (b : Byte) : Bool := b.val &&& 128 != 0

/-- The per-chunk test of `is_plain_ascii`: the SIMD comparison
`(chunk & splat 0x80) != splat 0` holds exactly when some byte of the chunk
has its high bit set. -/
def chunkHasHighBit (c : List Byte) : Bool := c.any hasHighBit

/-- One `split_array_ref::<k>` step of `is_plain_ascii`: when more than `k`
bytes remain, test the first `k` and keep the rest; otherwise leave the
remainder alone and report no high bit seen. -/
def checkSplit (k : Nat) (rem : List Byte) : Bool × List Byte :=
  if k < rem.length then (chunkHasHighBit (rem.take k), rem.drop k) else (false, rem)

/-- `is_plain_ascii` of `mutf8.rs`: the 32-byte exact chunks (processed by
the final loop of the Rust function, modelled as one test over their
concatenation, which equals testing every 32-byte chunk), with the
remainder split into 16-, 8- and 4-byte groups and a scalar tail.  The
function never short-circuits; it accumulates a flag. -/
def is_plain_ascii (slice : List Byte) : Bool :=
  match checkSplit 16 (slice.drop (32 * (slice.length / 32))) with
  | (f1, rem1) =>
    match checkSplit 8 rem1 with
    | (f2, rem2) =>
      match checkSplit 4 rem2 with
      | (f3, rem3) =>
        !(f1 || f2 || f3 || chunkHasHighBit rem3
          || chunkHasHighBit (slice.take (32 * (slice.length / 32))))

theorem chunkHasHighBit_append (x y : List Byte) :
    chunkHasHighBit (x ++ y) = (chunkHasHighBit x || chunkHasHighBit y) := by
  simp [chunkHasHighBit]

theorem checkSplit_spec (k : Nat) (rem : List Byte) (f : Bool) (r : List Byte)
    (h : checkSplit k rem = (f, r)) :
    (f || chunkHasHighBit r) = chunkHasHighBit rem := by
  unfold checkSplit at h
  split at h
  · injection h with h1 h2
    subst h1; subst h2
    rw [← chunkHasHighBit_append, List.take_append_drop]
  · injection h with h1 h2
    subst h1; subst h2
    simp

theorem is_plain_ascii_eq_not_any (s : List Byte) :
    is_plain_ascii s = !(chunkHasHighBit s) := by
  unfold is_plain_ascii
  rcases h1 : checkSplit 16 (s.drop (32 * (s.length / 32))) with ⟨f1, r1⟩
  rcases h2 : checkSplit 8 r1 with ⟨f2, r2⟩
  rcases h3 : checkSplit 4 r2 with ⟨f3, r3⟩
  simp only [h1, h2, h3]
  have e1 := checkSplit_spec _ _ _ _ h1
  have e2 := checkSplit_spec _ _ _ _ h2
  have e3 := checkSplit_spec _ _ _ _ h3
  have e0 : chunkHasHighBit s
      = (chunkHasHighBit (s.take (32 * (s.length / 32)))
         || chunkHasHighBit (s.drop (32 * (s.length / 32)))) := by
    rw [← chunkHasHighBit_append, List.take_append_drop]
  rw [e0, ← e1, ← e2, ← e3]
  cases f1 <;> cases f2 <;> cases f3 <;> cases chunkHasHighBit r3 <;>
    cases chunkHasHighBit (s.take (32 * (s.length / 32))) <;> rfl

set_option maxRecDepth 4000 in
theorem hasHighBit_iff (b : Byte) : hasHighBit b = false ↔ b.val < 128 := by
  revert b; decide

/-- Modelled from the spec: the 3-byte encoding step of the `mutf8` crate's
`encode` (standard UTF-8 3-byte form, also used for each surrogate half). -/
def enc3 (u : Nat) : List Byte :=
  [byt (0xE0 + u / 4096), byt (0x80 + u / 64 % 64), byt (0x80 + u % 64)]

/-- Modelled from the spec: per-code-point encoding of the `mutf8` crate
(spec section 4.1): ASCII unchanged, NUL as the overlong pair `C0 80`,
2- and 3-byte UTF-8 forms for the basic plane, and a UTF-16 surrogate pair
(each half 3-byte encoded, 6 bytes total) above U+FFFF. -/
def encodeChar (c : Nat) : List Byte :=
  if c = 0 then [byt 0xC0, byt 0x80]
  else if c < 0x80 then [byt c]
  else if c < 0x800 then [byt (0xC0 + c / 64), byt (0x80 + c % 64)]
  else if c < 0x10000 then enc3 c
  else enc3 (0xD800 + (c - 0x10000) / 1024) ++ enc3 (0xDC00 + (c - 0x10000) % 1024)

/-- Modelled from the spec: the `mutf8` crate's `encode` over a string,
modelled as the list of its code points. -/
def mutf8Encode (s : List Nat) : List Byte := (s.map encodeChar).flatten

/-- Modelled from the spec: the `mutf8` crate's `decode` grammar (spec
sections 4.1 and 7): fails with `MalformedString` on a standalone NUL
byte, a stray continuation or out-of-grammar byte, an overlong sequence
other than `C0 80`, an unpaired surrogate, or a native 4-byte form.  A
high surrogate must be followed by an encoded low surrogate; the pair
decodes to one supplementary code point.  The first argument is fuel,
instantiated with the input length (each step consumes at least one
byte). -/
def decodeMutf8Go : Nat → List Byte → Except NbtError (List Nat)
  | _, [] => .ok []
  | 0, _ :: _ => .error .MalformedString
  | fuel + 1, b :: rest =>
    if b.val = 0 then .error .MalformedString
    else if b.val < 0x80 then
      match decodeMutf8Go fuel rest with
      | .ok cs => .ok (b.val :: cs)
      | .error e => .error e
    else if b.val < 0xC0 then .error .MalformedString
    else if b.val < 0xE0 then
      match rest with
      | b2 :: rest2 =>
        if 0x80 ≤ b2.val ∧ b2.val < 0xC0 then
          if (b.val - 0xC0) * 64 + (b2.val - 0x80) = 0
              ∨ 0x80 ≤ (b.val - 0xC0) * 64 + (b2.val - 0x80) then
            match decodeMutf8Go fuel rest2 with
            | .ok cs => .ok (((b.val - 0xC0) * 64 + (b2.val - 0x80)) :: cs)
            | .error e => .error e
          else .error .MalformedString
        else .error .MalformedString
      | [] => .error .MalformedString
    else if b.val < 0xF0 then
      match rest with
      | b2 :: b3 :: rest3 =>
        if (0x80 ≤ b2.val ∧ b2.val < 0xC0) ∧ (0x80 ≤ b3.val ∧ b3.val < 0xC0) then
          if (b.val - 0xE0) * 4096 + (b2.val - 0x80) * 64 + (b3.val - 0x80) < 0x800 then
            .error .MalformedString
          else if 0xD800 ≤ (b.val - 0xE0) * 4096 + (b2.val - 0x80) * 64 + (b3.val - 0x80)
              ∧ (b.val - 0xE0) * 4096 + (b2.val - 0x80) * 64 + (b3.val - 0x80) < 0xDC00 then
            match rest3 with
            | b4 :: b5 :: b6 :: rest6 =>
              if (0xE0 ≤ b4.val ∧ b4.val < 0xF0)
                  ∧ (0x80 ≤ b5.val ∧ b5.val < 0xC0) ∧ (0x80 ≤ b6.val ∧ b6.val < 0xC0) then
                if 0xDC00 ≤ (b4.val - 0xE0) * 4096 + (b5.val - 0x80) * 64 + (b6.val - 0x80)
                    ∧ (b4.val - 0xE0) * 4096 + (b5.val - 0x80) * 64 + (b6.val - 0x80) < 0xE000 then
                  match decodeMutf8Go fuel rest6 with
                  | .ok cs => .ok ((0x10000
                      + ((b.val - 0xE0) * 4096 + (b2.val - 0x80) * 64 + (b3.val - 0x80) - 0xD800) * 1024
                      + ((b4.val - 0xE0) * 4096 + (b5.val - 0x80) * 64 + (b6.val - 0x80) - 0xDC00)) :: cs)
                  | .error e => .error e
                else .error .MalformedString
              else .error .MalformedString
            | _ => .error .MalformedString
          else if 0xDC00 ≤ (b.val - 0xE0) * 4096 + (b2.val - 0x80) * 64 + (b3.val - 0x80)
              ∧ (b.val - 0xE0) * 4096 + (b2.val - 0x80) * 64 + (b3.val - 0x80) < 0xE000 then
            .error .MalformedString
          else
            match decodeMutf8Go fuel rest3 with
            | .ok cs => .ok (((b.val - 0xE0) * 4096 + (b2.val - 0x80) * 64 + (b3.val - 0x80)) :: cs)
            | .error e => .error e
        else .error .MalformedString
      | _ => .error .MalformedString
    else .error .MalformedString

/-- Modelled from the spec: the `mutf8` crate's `decode`. -/
def mutf8Decode (s : List Byte) : Except NbtError (List Nat) :=
  decodeMutf8Go s.length s

/-- The borrowed/owned distinction of Rust's `Cow`. -/
inductive Cow (α : Type) where
  | Borrowed : α → Cow α
  | Owned : α → Cow α
deriving DecidableEq, Repr

/-- The payload of a `Cow`, whichever side it is on. -/
def Cow.value : Cow α → α
  | .Borrowed v => v
  | .Owned v => v

/-- An `Mutf8Str` view is just the borrowed byte slice. -/
abbrev Mutf8Str := List Byte

/-- `Mutf8String`: the owned form, holding its own byte buffer. -/
structure Mutf8String where
  vec : List Byte
deriving DecidableEq, Repr

/-- `Mutf8Str::from_slice`: a transmute — no validation, no copy. -/
def Mutf8Str.from_slice (slice : List Byte) : Mutf8Str := slice

/-- `Mutf8Str::as_bytes`. -/
def Mutf8Str.as_bytes (s : Mutf8Str) : List Byte := s

/-- `Mutf8Str::len`. -/
def Mutf8Str.len (s : Mutf8Str) : Nat := s.length

/-- `Mutf8Str::from_str`: encode a standard string (modelled as its list
of code points) into modified-encoding bytes.  The `Cow` wrapper of the
Rust signature only records whether the external `mutf8::encode`
allocated; the bytes are the same either way, so we return the bytes. -/
def Mutf8Str.from_str (s : List Nat) : List Byte := mutf8Encode s

/-- `Mutf8Str::to_str`: the plain-ASCII fast path reinterprets the bytes
as a borrowed string with zero decode work; otherwise the full decode
runs and its `expect` panics on a malformed slice, which we model as
`none`.  (A successful full decode is wrapped as `Owned`; the external
decoder's own borrow-vs-own choice is an allocation detail with the same
payload.) -/
def Mutf8Str.to_str (s : Mutf8Str) : Option (Cow (List Nat)) :=
  if is_plain_ascii s then some (.Borrowed (s.map Fin.val))
  else
    match mutf8Decode s with
    | .ok cs => some (.Owned cs)
    | .error _ => none

/-- `Mutf8Str::to_owned` (the `ToOwned` impl): copy the bytes into an
owned buffer. -/
def Mutf8Str.to_owned (s : Mutf8Str) : Mutf8String := ⟨s⟩

/-- `Mutf8String::as_str`: `from_slice` on the owned bytes — the
identity on the underlying byte sequence, no copy. -/
def Mutf8String.as_str (m : Mutf8String) : Mutf8Str :=
  Mutf8Str.from_slice m.vec

/-- `Mutf8String::into_string`: same fast path and panicking decode as
`Mutf8Str::to_str`, but consuming the owned buffer. -/
def Mutf8String.into_string (m : Mutf8String) : Option (List Nat) :=
  if is_plain_ascii m.vec then some (m.vec.map Fin.val)
  else
    match mutf8Decode m.vec with
    | .ok cs => some cs
    | .error _ => none

/-- Alias for a byte buffer, usable where constructor names of `Tag` and
`ListTag` shadow `List` and `Byte`. -/
abbrev Bytes := List Byte

/-- Alias for `List`, usable where the `Tag.List`/`ListTag.List`
constructors shadow the name `List`. -/
abbrev ListOf (α : Type) : Type := List α

mutual
/-- Modelled from the spec: `CompoundTag` of the missing `compound.rs` —
the ordered `(name, value)` pairs in encounter order (spec section 3). -/
inductive CompoundTag where
  | mk : List (List (Fin 256) × Tag) → CompoundTag

/-- Modelled from the spec: `ListTag` of the missing `list.rs` — an
element-type discriminant plus the homogeneous elements; a zero-length
list keeps its declared element type verbatim so it round-trips
unchanged (spec sections 3 and 4.4); 32/64-bit integer element runs are
kept as raw `RawList` bytes (zero-copy specialization, spec section 4.4
step 4). -/
inductive ListTag where
  | Empty : Fin 256 → ListTag
  | Byte : List ℤ → ListTag
  | Short : List ℤ → ListTag
  | Int : List (Fin 256) → ListTag
  | Long : List (Fin 256) → ListTag
  | Float : List ℕ → ListTag
  | Double : List ℕ → ListTag
  | ByteArray : List (List (Fin 256)) → ListTag
  | String : List (List (Fin 256)) → ListTag
  | List : List ListTag → ListTag
  | Compound : List CompoundTag → ListTag
  | IntArray : List (List (Fin 256)) → ListTag
  | LongArray : List (List (Fin 256)) → ListTag

/-- `Tag` of `borrow/mod.rs`: the twelve value variants.  Scalar integers
carry their signed value; floats carry their raw big-endian bit pattern
(the Rust `f32`/`f64` round-trip bit-identically through
`from_be_bytes`/`to_be_bytes`, so the bits are the faithful model);
`IntArray`/`LongArray` carry the borrowed raw bytes of their `RawList`
view. -/
inductive Tag where
  | Byte : ℤ → Tag
  | Short : ℤ → Tag
  | Int : ℤ → Tag
  | Long : ℤ → Tag
  | Float : ℕ → Tag
  | Double : ℕ → Tag
  | ByteArray : Bytes → Tag
  | String : Bytes → Tag
  | List : ListTag → Tag
  | Compound : CompoundTag → Tag
  | IntArray : Bytes → Tag
  | LongArray : Bytes → Tag
end

/-- The ordered entries of a compound. -/
def CompoundTag.values : CompoundTag → ListOf (Bytes × Tag)
  | .mk vs => vs

/-- `Tag::id` of `borrow/mod.rs`: the numeric discriminant of the
variant.  The Rust code reads the `repr(u8)` discriminant byte in place;
the discriminants are declared as `Byte(i8) = BYTE_ID`, …,
`LongArray(..) = LONG_ARRAY_ID`, which is what this match returns. -/
def Tag.id : Tag → Fin 256
  | .Byte _ => BYTE_ID
  | .Short _ => SHORT_ID
  | .Int _ => INT_ID
  | .Long _ => LONG_ID
  | .Float _ => FLOAT_ID
  | .Double _ => DOUBLE_ID
  | .ByteArray _ => BYTE_ARRAY_ID
  | .String _ => STRING_ID
  | .List _ => LIST_ID
  | .Compound _ => COMPOUND_ID
  | .IntArray _ => INT_ARRAY_ID
  | .LongArray _ => LONG_ARRAY_ID

/-- Modelled from the spec: `RawList::to_vec` of the missing
`raw_list.rs` — materialize the packed big-endian `w`-byte integers as
native signed values (spec section 3: an always-successful pure byte
conversion). -/
def rawListToVec (w : Nat) (raw : List Byte) : List Int :=
  if h : w ≤ raw.length ∧ 0 < w then
    toSigned (8 * w) (beBytesToNat (raw.take w)) :: rawListToVec w (raw.drop w)
  else []
termination_by raw.length
decreasing_by simp only [List.length_drop]; omega

/-- `Tag::byte`. -/
def Tag.byte : Tag → Option ℤ
  | .Byte v => some v
  | _ => none

/-- `Tag::short`. -/
def Tag.short : Tag → Option ℤ
  | .Short v => some v
  | _ => none

/-- `Tag::int`. -/
def Tag.int : Tag → Option ℤ
  | .Int v => some v
  | _ => none

/-- `Tag::long`. -/
def Tag.long : Tag → Option ℤ
  | .Long v => some v
  | _ => none

/-- `Tag::float` (the `f32` is modelled by its bit pattern). -/
def Tag.float : Tag → Option ℕ
  | .Float bits => some bits
  | _ => none

/-- `Tag::double` (the `f64` is modelled by its bit pattern). -/
def Tag.double : Tag → Option ℕ
  | .Double bits => some bits
  | _ => none

/-- `Tag::byte_array`. -/
def Tag.byte_array : Tag → Option Bytes
  | .ByteArray bs => some bs
  | _ => none

/-- `Tag::string`. -/
def Tag.string : Tag → Option Bytes
  | .String s => some s
  | _ => none

/-- `Tag::list`. -/
def Tag.list : Tag → Option ListTag
  | .List l => some l
  | _ => none

/-- `Tag::compound`. -/
def Tag.compound : Tag → Option CompoundTag
  | .Compound c => some c
  | _ => none

/-- `Tag::int_array` (materializes the raw view via `to_vec`). -/
def Tag.int_array : Tag → Option (ListOf ℤ)
  | .IntArray raw => some (rawListToVec 4 raw)
  | _ => none

/-- `Tag::long_array` (materializes the raw view via `to_vec`). -/
def Tag.long_array : Tag → Option (ListOf ℤ)
  | .LongArray raw => some (rawListToVec 8 raw)
  | _ => none

/-- Map a function over the value of a read result. -/
def mapRead {α β : Type} (f : α → β) : ReadResult α → ReadResult β
  | .ok (v, rest) => .ok (f v, rest)
  | .error e => .error e

/-- Read a `k`-byte big-endian bit pattern (float payloads). -/
def readBits (k : Nat) (input : List Byte) : ReadResult Nat :=
  match readExact k input with
  | .ok (bs, rest) => .ok (beBytesToNat bs, rest)
  | .error e => .error e

/-- Modelled from the spec: a byte-array payload — signed 32-bit count
then that many raw bytes; a negative count, or one exceeding the
remaining buffer, fails with `UnexpectedEof` before any allocation (spec
sections 4.4–4.5). -/
def readByteArrayPayload (input : List Byte) : ReadResult (List Byte) :=
  match read_u32 input with
  | .ok (n, rest) =>
    if 2 ^ 31 ≤ n then .error .UnexpectedEof else readExact n rest
  | .error e => .error e

/-- Modelled from the spec: an int/long-array payload — signed 32-bit
count then `w * count` raw bytes kept verbatim as the `RawList` view
(zero-copy; spec sections 4.2 and 4.4 step 4). -/
def readRawPayload (w : Nat) (input : List Byte) : ReadResult (List Byte) :=
  match read_u32 input with
  | .ok (n, rest) =>
    if 2 ^ 31 ≤ n then .error .UnexpectedEof else readExact (w * n) rest
  | .error e => .error e

/-- Read `n` consecutive values with the element reader `p` (the
element-by-element decode loops of `list.rs`). -/
def parseN {α : Type} (p : List Byte → ReadResult α) : Nat → List Byte → ReadResult (List α)
  | 0, input => .ok ([], input)
  | n + 1, input =>
    match p input with
    | .ok (v, rest) =>
      match parseN p n rest with
      | .ok (vs, rest2) => .ok (v :: vs, rest2)
      | .error e => .error e
    | .error e => .error e

mutual
/-- Modelled from the spec: the per-discriminant payload parser of the
missing `compound.rs` (spec section 4.5): scalars read their fixed-width
payload, arrays their counted payload, strings a length-prefixed string,
and list/compound recurse with `depth + 1`.  The first argument is fuel
for the mutual recursion, instantiated at the root with a value larger
than any possible recursion (each fueled step consumes input). -/
def parseTagPayload (fuel : Nat) (t : Byte) (depth : Nat) (input : List Byte) :
    ReadResult Tag :=
  match fuel with
  | 0 => .error .UnexpectedEof
  | fuel + 1 =>
    if t = BYTE_ID then mapRead Tag.Byte (readSigned 1 input)
    else if t = SHORT_ID then mapRead Tag.Short (readSigned 2 input)
    else if t = INT_ID then mapRead Tag.Int (readSigned 4 input)
    else if t = LONG_ID then mapRead Tag.Long (readSigned 8 input)
    else if t = FLOAT_ID then mapRead Tag.Float (readBits 4 input)
    else if t = DOUBLE_ID then mapRead Tag.Double (readBits 8 input)
    else if t = BYTE_ARRAY_ID then mapRead Tag.ByteArray (readByteArrayPayload input)
    else if t = STRING_ID then mapRead Tag.String (read_string input)
    else if t = LIST_ID then mapRead Tag.List (parseList fuel (depth + 1) input)
    else if t = COMPOUND_ID then mapRead Tag.Compound (parseCompound fuel (depth + 1) input)
    else if t = INT_ARRAY_ID then mapRead Tag.IntArray (readRawPayload 4 input)
    else if t = LONG_ARRAY_ID then mapRead Tag.LongArray (readRawPayload 8 input)
    else .error (.UnknownTagId t)
termination_by structural fuel

/-- Modelled from the spec: `CompoundTag::new` of the missing
`compound.rs` — fail with `MaxDepthExceeded` past the depth bound, then
read entries until the end sentinel (spec sections 4.4–4.5). -/
def parseCompound (fuel : Nat) (depth : Nat) (input : List Byte) :
    ReadResult CompoundTag :=
  match fuel with
  | 0 => .error .UnexpectedEof
  | fuel + 1 =>
    if MAX_DEPTH < depth then .error .MaxDepthExceeded
    else mapRead CompoundTag.mk (parseEntries fuel depth input)
termination_by structural fuel

/-- Modelled from the spec: the entry loop of `CompoundTag::new` — read a
discriminant byte; stop (consuming it) on "end"; otherwise read the name
string and the payload for that discriminant, and continue (spec section
4.5). -/
def parseEntries (fuel : Nat) (depth : Nat) (input : List Byte) :
    ReadResult (List (Bytes × Tag)) :=
  match fuel with
  | 0 => .error .UnexpectedEof
  | fuel + 1 =>
    match read_u8 input with
    | .error e => .error e
    | .ok (t, r1) =>
      if t = END_ID then .ok ([], r1)
      else
        match read_string r1 with
        | .error e => .error e
        | .ok (name, r2) =>
          match parseTagPayload fuel t depth r2 with
          | .error e => .error e
          | .ok (tag, r3) =>
            match parseEntries fuel depth r3 with
            | .error e => .error e
            | .ok (entries, r4) => .ok ((name, tag) :: entries, r4)
termination_by structural fuel

/-- Modelled from the spec: `ListTag::new` of the missing `list.rs`
(spec section 4.4): element-type byte, signed 32-bit count (negative
fails with `UnexpectedEof` before any allocation), a zero count keeps
the declared type verbatim, a nonzero count with "end" type is
`InvalidListType`, 32/64-bit integer elements are taken as one raw byte
run, every other element type is decoded in a loop, recursing with
`depth + 1` for nested containers, and an unknown discriminant is
`InvalidListType`. -/
def parseList (fuel : Nat) (depth : Nat) (input : List Byte) :
    ReadResult ListTag :=
  match fuel with
  | 0 => .error .UnexpectedEof
  | fuel + 1 =>
    if MAX_DEPTH < depth then .error .MaxDepthExceeded
    else
      match read_u8 input with
      | .error e => .error e
      | .ok (t, r1) =>
        match read_u32 r1 with
        | .error e => .error e
        | .ok (n, r2) =>
          if 2 ^ 31 ≤ n then .error .UnexpectedEof
          else if n = 0 then .ok (.Empty t, r2)
          else if t = END_ID then .error (.InvalidListType t)
          else if t = BYTE_ID then mapRead ListTag.Byte (parseN (readSigned 1) n r2)
          else if t = SHORT_ID then mapRead ListTag.Short (parseN (readSigned 2) n r2)
          else if t = INT_ID then mapRead ListTag.Int (readExact (4 * n) r2)
          else if t = LONG_ID then mapRead ListTag.Long (readExact (8 * n) r2)
          else if t = FLOAT_ID then mapRead ListTag.Float (parseN (readBits 4) n r2)
          else if t = DOUBLE_ID then mapRead ListTag.Double (parseN (readBits 8) n r2)
          else if t = BYTE_ARRAY_ID then
            mapRead ListTag.ByteArray (parseN readByteArrayPayload n r2)
          else if t = STRING_ID then mapRead ListTag.String (parseN read_string n r2)
          else if t = LIST_ID then mapRead ListTag.List (parseLists fuel (depth + 1) n r2)
          else if t = COMPOUND_ID then
            mapRead ListTag.Compound (parseCompounds fuel (depth + 1) n r2)
          else if t = INT_ARRAY_ID then
            mapRead ListTag.IntArray (parseN (readRawPayload 4) n r2)
          else if t = LONG_ARRAY_ID then
            mapRead ListTag.LongArray (parseN (readRawPayload 8) n r2)
          else .error (.InvalidListType t)
termination_by structural fuel

/-- Modelled from the spec: the compound-element loop of a
compound-typed list (spec section 4.4 step 5). -/
def parseCompounds (fuel : Nat) (depth : Nat) (n : Nat) (input : List Byte) :
    ReadResult (List CompoundTag) :=
  match fuel with
  | 0 => .error .UnexpectedEof
  | fuel + 1 =>
    match n with
    | 0 => .ok ([], input)
    | n + 1 =>
      match parseCompound fuel depth input with
      | .error e => .error e
      | .ok (c, r) =>
        match parseCompounds fuel depth n r with
        | .error e => .error e
        | .ok (cs, r2) => .ok (c :: cs, r2)
termination_by structural fuel

/-- Modelled from the spec: the list-element loop of a list-typed list
(spec section 4.4 step 5). -/
def parseLists (fuel : Nat) (depth : Nat) (n : Nat) (input : List Byte) :
    ReadResult (List ListTag) :=
  match fuel with
  | 0 => .error .UnexpectedEof
  | fuel + 1 =>
    match n with
    | 0 => .ok ([], input)
    | n + 1 =>
      match parseList fuel depth input with
      | .error e => .error e
      | .ok (l, r) =>
        match parseLists fuel depth n r with
        | .error e => .error e
        | .ok (ls, r2) => .ok (l :: ls, r2)
termination_by structural fuel
end

/-- Concatenate the bytes written for each element by `w` (the element
write loops). -/
def writeMany {α : Type} (w : α → List Byte) (vs : List α) : List Byte :=
  (vs.map w).flatten

/-- Bytes appended when writing a byte-array payload: the `i32` count
then the raw bytes. -/
def writeByteArrayPayload (bs : List Byte) : List Byte := writeU32 bs.length ++ bs

/-- Bytes appended when writing an int/long-array payload: the `i32`
element count (`raw.len() / size_of::<T>()` of the `RawList`) then the
raw bytes. -/
def writeRawPayload (w : Nat) (raw : List Byte) : List Byte :=
  writeU32 (raw.length / w) ++ raw

mutual
/-- Modelled from the spec: the per-entry payload writer of the missing
`compound.rs` (spec section 4.5).  A nested compound payload is its
entries followed by the end terminator (matching `Nbt::write` in
`borrow/mod.rs`, which appends the root compound's terminator itself). -/
def writeTagPayload : Tag → List Byte
  | .Byte v => writeSigned 1 v
  | .Short v => writeSigned 2 v
  | .Int v => writeSigned 4 v
  | .Long v => writeSigned 8 v
  | .Float bits => natToBeBytes 4 bits
  | .Double bits => natToBeBytes 8 bits
  | .ByteArray bs => writeByteArrayPayload bs
  | .String s => write_string s
  | .List l => writeListPayload l
  | .Compound (.mk entries) => writeEntries entries ++ [END_ID]
  | .IntArray raw => writeRawPayload 4 raw
  | .LongArray raw => writeRawPayload 8 raw

/-- Modelled from the spec: the entry loop of `CompoundTag::write` — for
each pair in stored order, the discriminant byte (`Tag::id`), the name,
the payload (spec section 4.5); the end terminator is appended by the
caller, as `Nbt::write` in `borrow/mod.rs` does for the root. -/
def writeEntries : List (Bytes × Tag) → List Byte
  | [] => []
  | (name, tag) :: rest =>
    Tag.id tag :: (write_string name ++ writeTagPayload tag ++ writeEntries rest)

/-- Modelled from the spec: `ListTag::write` of the missing `list.rs` —
element-type byte, signed 32-bit count, then each element's raw payload
with no per-element type byte (spec section 4.4); an empty list writes
its stored declared type verbatim. -/
def writeListPayload : ListTag → List Byte
  | .Empty t => t :: writeU32 0
  | .Byte vs => BYTE_ID :: (writeU32 vs.length ++ writeMany (writeSigned 1) vs)
  | .Short vs => SHORT_ID :: (writeU32 vs.length ++ writeMany (writeSigned 2) vs)
  | .Int raw => INT_ID :: (writeU32 (raw.length / 4) ++ raw)
  | .Long raw => LONG_ID :: (writeU32 (raw.length / 8) ++ raw)
  | .Float vs => FLOAT_ID :: (writeU32 vs.length ++ writeMany (natToBeBytes 4) vs)
  | .Double vs => DOUBLE_ID :: (writeU32 vs.length ++ writeMany (natToBeBytes 8) vs)
  | .ByteArray vs => BYTE_ARRAY_ID :: (writeU32 vs.length ++ writeMany writeByteArrayPayload vs)
  | .String vs => STRING_ID :: (writeU32 vs.length ++ writeMany write_string vs)
  | .List ls => LIST_ID :: (writeU32 ls.length ++ writeListsElems ls)
  | .Compound cs => COMPOUND_ID :: (writeU32 cs.length ++ writeCompoundsElems cs)
  | .IntArray vs => INT_ARRAY_ID :: (writeU32 vs.length ++ writeMany (writeRawPayload 4) vs)
  | .LongArray vs => LONG_ARRAY_ID :: (writeU32 vs.length ++ writeMany (writeRawPayload 8) vs)

/-- Modelled from the spec: the element loop writing a compound-typed
list's elements (each one entries plus terminator). -/
def writeCompoundsElems : List CompoundTag → List Byte
  | [] => []
  | .mk entries :: rest => writeEntries entries ++ [END_ID] ++ writeCompoundsElems rest

/-- Modelled from the spec: the element loop writing a list-typed
list's elements. -/
def writeListsElems : List ListTag → List Byte
  | [] => []
  | l :: rest => writeListPayload l ++ writeListsElems rest
end

/-- Modelled from the spec: `CompoundTag::write` of the missing
`compound.rs`: the entries in stored order.  The end terminator is
appended by the caller (`Nbt::write` pushes it for the root; the nested
compound payload writer appends it for inner compounds). -/
def CompoundTag.write (c : CompoundTag) : List Byte :=
  writeEntries c.values

/-- `Nbt` of `borrow/mod.rs`: a name and a compound tag. -/
structure Nbt where
  name : Bytes
  tag : CompoundTag

/-- `OptionalNbt` of `borrow/mod.rs`. -/
inductive OptionalNbt where
  | Some : Nbt → OptionalNbt
  | None : OptionalNbt

/-- `Nbt::name`. -/
def Nbt.name' (nbt : Nbt) : Bytes := nbt.name

/-- `Nbt::write` of `borrow/mod.rs` (lines 94–99): push the compound
discriminant, write the name, write the compound body, push the end
byte. -/
def Nbt.write (nbt : Nbt) : List Byte :=
  COMPOUND_ID :: (write_string nbt.name ++ CompoundTag.write nbt.tag ++ [END_ID])

/-- `OptionalNbt::read` of `borrow/mod.rs` (lines 37–49): read the root
discriminant (any failure is `UnexpectedEof`); "end" is the absent
document; anything but "compound" is `InvalidRootType`; otherwise read
the root name and parse a compound at depth 0.  The compound parser's
fuel is instantiated at more than the recursion the remaining input
could possibly require (every fueled step consumes input). -/
def OptionalNbt.read (input : List Byte) : ReadResult OptionalNbt :=
  match read_u8 input with
  | .error _ => .error .UnexpectedEof
  | .ok (root_type, r1) =>
    if root_type = END_ID then .ok (.None, r1)
    else if root_type ≠ COMPOUND_ID then .error (.InvalidRootType root_type)
    else
      match read_string r1 with
      | .error e => .error e
      | .ok (name, r2) =>
        match parseCompound (4 * r2.length + 8) 0 r2 with
        | .error e => .error e
        | .ok (tag, r3) => .ok (.Some ⟨name, tag⟩, r3)

/-- `OptionalNbt::write` of `borrow/mod.rs` (lines 51–58). -/
def OptionalNbt.write : OptionalNbt → List Byte
  | .Some nbt => nbt.write
  | .None => [END_ID]

/-- `OptionalNbt::is_some`. -/
def OptionalNbt.is_some : OptionalNbt → Bool
  | .Some _ => true
  | .None => false

/-- `OptionalNbt::is_none`. -/
def OptionalNbt.is_none (n : OptionalNbt) : Bool := !n.is_some

theorem read_u8_ok (input : List Byte) (b : Byte) (rest : List Byte)
    (h : read_u8 input = .ok (b, rest)) : input = b :: rest := by
  cases input with
  | nil => exact absurd h (by simp [read_u8])
  | cons x xs =>
    simp only [read_u8] at h
    injection h with h'
    injection h' with h1 h2
    rw [h1, h2]

theorem mapRead_ok {α β : Type} (f : α → β) (r : ReadResult α) (b : β) (rest : List Byte)
    (h : mapRead f r = .ok (b, rest)) : ∃ a, r = .ok (a, rest) ∧ b = f a := by
  cases r with
  | error e => exact absurd h (by simp [mapRead])
  | ok p =>
    obtain ⟨a, rst⟩ := p
    simp only [mapRead] at h
    injection h with h'
    injection h' with h1 h2
    exact ⟨a, by rw [h2], h1.symm⟩

theorem readBits_spec (k : Nat) (input : List Byte) (bits : Nat) (rest : List Byte)
    (h : readBits k input = .ok (bits, rest)) :
    natToBeBytes k bits ++ rest = input := by
  unfold readBits at h
  cases he : readExact k input with
  | error e => rw [he] at h; exact absurd h (by simp)
  | ok p =>
    obtain ⟨bs, r⟩ := p
    rw [he] at h
    injection h with h'
    injection h' with h1 h2
    subst h1; subst h2
    obtain ⟨happ, hlen⟩ := readExact_append k input bs r he
    rw [← hlen, natToBeBytes_beBytesToNat bs]
    exact happ

theorem readByteArrayPayload_spec (input : List Byte) (bs : List Byte) (rest : List Byte)
    (h : readByteArrayPayload input = .ok (bs, rest)) :
    writeByteArrayPayload bs ++ rest = input := by
  unfold readByteArrayPayload at h
  cases he : read_u32 input with
  | error e => rw [he] at h; exact absurd h (by simp)
  | ok p =>
    obtain ⟨n, r⟩ := p
    simp only [he] at h
    split at h
    · exact absurd h (by simp)
    · obtain ⟨happ1, _⟩ := read_u32_spec input n r he
      obtain ⟨happ2, hlen⟩ := readExact_append n r bs rest h
      unfold writeByteArrayPayload
      rw [hlen, List.append_assoc, happ2]
      exact happ1

theorem readRawPayload_spec (w : Nat) (hw : 0 < w) (input : List Byte)
    (raw : List Byte) (rest : List Byte)
    (h : readRawPayload w input = .ok (raw, rest)) :
    writeRawPayload w raw ++ rest = input := by
  unfold readRawPayload at h
  cases he : read_u32 input with
  | error e => rw [he] at h; exact absurd h (by simp)
  | ok p =>
    obtain ⟨n, r⟩ := p
    simp only [he] at h
    split at h
    · exact absurd h (by simp)
    · obtain ⟨happ1, _⟩ := read_u32_spec input n r he
      obtain ⟨happ2, hlen⟩ := readExact_append (w * n) r raw rest h
      unfold writeRawPayload
      rw [hlen, Nat.mul_div_cancel_left n hw, List.append_assoc, happ2]
      exact happ1

theorem writeMany_cons {α : Type} (w : α → List Byte) (v : α) (vs : List α) :
    writeMany w (v :: vs) = w v ++ writeMany w vs := by
  simp [writeMany]

theorem parseN_spec {α : Type} (p : List Byte → ReadResult α) (w : α → List Byte)
    (hp : ∀ input v rest, p input = .ok (v, rest) → w v ++ rest = input) :
    ∀ (n : Nat) (input : List Byte) (vs : List α) (rest : List Byte),
      parseN p n input = .ok (vs, rest) →
      vs.length = n ∧ writeMany w vs ++ rest = input := by
  intro n
  induction n with
  | zero =>
    intro input vs rest h
    simp only [parseN] at h
    injection h with h'
    injection h' with h1 h2
    subst h1; subst h2
    simp [writeMany]
  | succ m ih =>
    intro input vs rest h
    simp only [parseN] at h
    cases he : p input with
    | error e => rw [he] at h; exact absurd h (by simp)
    | ok q =>
      obtain ⟨v, r⟩ := q
      simp only [he] at h
      cases he2 : parseN p m r with
      | error e => simp only [he2] at h; exact absurd h (by simp)
      | ok q2 =>
        obtain ⟨vs2, r2⟩ := q2
        simp only [he2] at h
        injection h with h'
        injection h' with h1 h2
        obtain ⟨hlen, happ⟩ := ih r vs2 r2 he2
        subst h1; subst h2
        refine ⟨by simp [hlen], ?_⟩
        rw [writeMany_cons, List.append_assoc, happ]
        exact hp input v r he

theorem parse_write_roundtrip (fuel : Nat) :
    (∀ t depth input v rest, parseTagPayload fuel t depth input = .ok (v, rest) →
        Tag.id v = t ∧ writeTagPayload v ++ rest = input)
    ∧ (∀ depth input es rest, parseEntries fuel depth input = .ok (es, rest) →
        writeEntries es ++ (END_ID :: rest) = input)
    ∧ (∀ depth input c rest, parseCompound fuel depth input = .ok (c, rest) →
        CompoundTag.write c ++ (END_ID :: rest) = input)
    ∧ (∀ depth input l rest, parseList fuel depth input = .ok (l, rest) →
        writeListPayload l ++ rest = input)
    ∧ (∀ depth n input cs rest, parseCompounds fuel depth n input = .ok (cs, rest) →
        cs.length = n ∧ writeCompoundsElems cs ++ rest = input)
    ∧ (∀ depth n input ls rest, parseLists fuel depth n input = .ok (ls, rest) →
        ls.length = n ∧ writeListsElems ls ++ rest = input) := by
  induction fuel with
  | zero =>
    refine ⟨?_, ?_, ?_, ?_, ?_, ?_⟩ <;>
      first
        | (intro t depth input v rest h; exact absurd h (by simp [parseTagPayload]))
        | (intro depth input v rest h;
           first
             | exact absurd h (by simp [parseEntries])
             | exact absurd h (by simp [parseCompound])
             | exact absurd h (by simp [parseList]))
        | (intro depth n input v rest h;
           first
             | exact absurd h (by simp [parseCompounds])
             | exact absurd h (by simp [parseLists]))
  | succ fuel ih =>
    obtain ⟨ihA, ihEnt, ihB, ihC, ihD, ihE⟩ := ih
    refine ⟨?_, ?_, ?_, ?_, ?_, ?_⟩
    -- parseTagPayload
    · intro t depth input v rest h
      simp only [parseTagPayload] at h
      by_cases h1 : t = BYTE_ID
      · rw [if_pos h1] at h
        obtain ⟨a, ha, hv⟩ := mapRead_ok _ _ _ _ h
        subst hv
        exact ⟨by rw [h1]; rfl, readSigned_spec 1 input a rest ha⟩
      rw [if_neg h1] at h
      by_cases h2 : t = SHORT_ID
      · rw [if_pos h2] at h
        obtain ⟨a, ha, hv⟩ := mapRead_ok _ _ _ _ h
        subst hv
        exact ⟨by rw [h2]; rfl, readSigned_spec 2 input a rest ha⟩
      rw [if_neg h2] at h
      by_cases h3 : t = INT_ID
      · rw [if_pos h3] at h
        obtain ⟨a, ha, hv⟩ := mapRead_ok _ _ _ _ h
        subst hv
        exact ⟨by rw [h3]; rfl, readSigned_spec 4 input a rest ha⟩
      rw [if_neg h3] at h
      by_cases h4 : t = LONG_ID
      · rw [if_pos h4] at h
        obtain ⟨a, ha, hv⟩ := mapRead_ok _ _ _ _ h
        subst hv
        exact ⟨by rw [h4]; rfl, readSigned_spec 8 input a rest ha⟩
      rw [if_neg h4] at h
      by_cases h5 : t = FLOAT_ID
      · rw [if_pos h5] at h
        obtain ⟨a, ha, hv⟩ := mapRead_ok _ _ _ _ h
        subst hv
        exact ⟨by rw [h5]; rfl, readBits_spec 4 input a rest ha⟩
      rw [if_neg h5] at h
      by_cases h6 : t = DOUBLE_ID
      · rw [if_pos h6] at h
        obtain ⟨a, ha, hv⟩ := mapRead_ok _ _ _ _ h
        subst hv
        exact ⟨by rw [h6]; rfl, readBits_spec 8 input a rest ha⟩
      rw [if_neg h6] at h
      by_cases h7 : t = BYTE_ARRAY_ID
      · rw [if_pos h7] at h
        obtain ⟨a, ha, hv⟩ := mapRead_ok _ _ _ _ h
        subst hv
        exact ⟨by rw [h7]; rfl, readByteArrayPayload_spec input a rest ha⟩
      rw [if_neg h7] at h
      by_cases h8 : t = STRING_ID
      · rw [if_pos h8] at h
        obtain ⟨a, ha, hv⟩ := mapRead_ok _ _ _ _ h
        subst hv
        exact ⟨by rw [h8]; rfl, read_string_spec input a rest ha⟩
      rw [if_neg h8] at h
      by_cases h9 : t = LIST_ID
      · rw [if_pos h9] at h
        obtain ⟨a, ha, hv⟩ := mapRead_ok _ _ _ _ h
        subst hv
        exact ⟨by rw [h9]; rfl, ihC (depth + 1) input a rest ha⟩
      rw [if_neg h9] at h
      by_cases h10 : t = COMPOUND_ID
      · rw [if_pos h10] at h
        obtain ⟨a, ha, hv⟩ := mapRead_ok _ _ _ _ h
        subst hv
        obtain ⟨es⟩ := a
        have hb := ihB (depth + 1) input (.mk es) rest ha
        refine ⟨by rw [h10]; rfl, ?_⟩
        show (writeEntries es ++ [END_ID]) ++ rest = input
        simpa [CompoundTag.write, CompoundTag.values, List.append_assoc] using hb
      rw [if_neg h10] at h
      by_cases h11 : t = INT_ARRAY_ID
      · rw [if_pos h11] at h
        obtain ⟨a, ha, hv⟩ := mapRead_ok _ _ _ _ h
        subst hv
        exact ⟨by rw [h11]; rfl, readRawPayload_spec 4 (by norm_num) input a rest ha⟩
      rw [if_neg h11] at h
      by_cases h12 : t = LONG_ARRAY_ID
      · rw [if_pos h12] at h
        obtain ⟨a, ha, hv⟩ := mapRead_ok _ _ _ _ h
        subst hv
        exact ⟨by rw [h12]; rfl, readRawPayload_spec 8 (by norm_num) input a rest ha⟩
      rw [if_neg h12] at h
      exact absurd h (by simp)
    -- parseEntries
    · intro depth input es rest h
      simp only [parseEntries] at h
      cases hu : read_u8 input with
      | error e => simp only [hu] at h; exact absurd h (by simp)
      | ok p =>
        obtain ⟨t, r1⟩ := p
        simp only [hu] at h
        have hin : input = t :: r1 := read_u8_ok _ _ _ hu
        by_cases hend : t = END_ID
        · rw [if_pos hend] at h
          injection h with h'
          injection h' with h1 h2
          subst h1; subst h2
          simp [writeEntries, hin, hend]
        · rw [if_neg hend] at h
          cases hs : read_string r1 with
          | error e => simp only [hs] at h; exact absurd h (by simp)
          | ok q =>
            obtain ⟨name, r2⟩ := q
            simp only [hs] at h
            cases hp : parseTagPayload fuel t depth r2 with
            | error e => simp only [hp] at h; exact absurd h (by simp)
            | ok q2 =>
              obtain ⟨tag, r3⟩ := q2
              simp only [hp] at h
              cases hr : parseEntries fuel depth r3 with
              | error e => simp only [hr] at h; exact absurd h (by simp)
              | ok q3 =>
                obtain ⟨es2, r4⟩ := q3
                simp only [hr] at h
                injection h with h'
                injection h' with h1 h2
                obtain ⟨hid, hw⟩ := ihA t depth r2 tag r3 hp
                have hws := read_string_spec r1 name r2 hs
                have hes := ihEnt depth r3 es2 r4 hr
                subst h1; subst h2
                rw [hin]
                simp only [writeEntries, hid, List.cons_append, List.cons.injEq, true_and,
                  List.append_assoc]
                rw [hes, hw]
                exact hws
    -- parseCompound
    · intro depth input c rest h
      simp only [parseCompound] at h
      split at h
      · exact absurd h (by simp)
      · obtain ⟨es, hes, hc⟩ := mapRead_ok _ _ _ _ h
        subst hc
        have := ihEnt depth input es rest hes
        simpa [CompoundTag.write, CompoundTag.values] using this
    -- parseList
    · intro depth input l rest h
      simp only [parseList] at h
      by_cases hd : MAX_DEPTH < depth
      · rw [if_pos hd] at h
        exact absurd h (by simp)
      rw [if_neg hd] at h
      cases hu : read_u8 input with
      | error e => simp only [hu] at h; exact absurd h (by simp)
      | ok p =>
        obtain ⟨t, r1⟩ := p
        simp only [hu] at h
        have hin : input = t :: r1 := read_u8_ok _ _ _ hu
        cases h32 : read_u32 r1 with
        | error e => simp only [h32] at h; exact absurd h (by simp)
        | ok q =>
          obtain ⟨n, r2⟩ := q
          simp only [h32] at h
          obtain ⟨h32app, h32lt⟩ := read_u32_spec r1 n r2 h32
          by_cases hbig : 2 ^ 31 ≤ n
          · rw [if_pos hbig] at h
            exact absurd h (by simp)
          rw [if_neg hbig] at h
          by_cases hn0 : n = 0
          · rw [if_pos hn0] at h
            injection h with h'
            injection h' with h1 h2
            subst h1; subst h2
            subst hn0
            rw [hin]
            simpa [writeListPayload, writeU32] using h32app
          rw [if_neg hn0] at h
          by_cases hend : t = END_ID
          · rw [if_pos hend] at h
            exact absurd h (by simp)
          rw [if_neg hend] at h
          by_cases h1 : t = BYTE_ID
          · rw [if_pos h1] at h
            obtain ⟨vs, hvs, hl⟩ := mapRead_ok _ _ _ _ h
            subst hl
            obtain ⟨hlen, happ⟩ := parseN_spec (readSigned 1) (writeSigned 1)
              (fun i v r hh => readSigned_spec 1 i v r hh) n r2 vs rest hvs
            rw [hin, h1]
            simp only [writeListPayload, hlen, List.cons_append, List.cons.injEq, true_and,
              List.append_assoc]
            rw [happ]
            exact h32app
          rw [if_neg h1] at h
          by_cases h2 : t = SHORT_ID
          · rw [if_pos h2] at h
            obtain ⟨vs, hvs, hl⟩ := mapRead_ok _ _ _ _ h
            subst hl
            obtain ⟨hlen, happ⟩ := parseN_spec (readSigned 2) (writeSigned 2)
              (fun i v r hh => readSigned_spec 2 i v r hh) n r2 vs rest hvs
            rw [hin, h2]
            simp only [writeListPayload, hlen, List.cons_append, List.cons.injEq, true_and,
              List.append_assoc]
            rw [happ]
            exact h32app
          rw [if_neg h2] at h
          by_cases h3 : t = INT_ID
          · rw [if_pos h3] at h
            obtain ⟨raw, hraw, hl⟩ := mapRead_ok _ _ _ _ h
            subst hl
            obtain ⟨happ, hlenraw⟩ := readExact_append (4 * n) r2 raw rest hraw
            rw [hin, h3]
            simp only [writeListPayload, hlenraw, Nat.mul_div_cancel_left n (by norm_num : 0 < 4),
              List.cons_append, List.cons.injEq, true_and, List.append_assoc]
            rw [happ]
            exact h32app
          rw [if_neg h3] at h
          by_cases h4 : t = LONG_ID
          · rw [if_pos h4] at h
            obtain ⟨raw, hraw, hl⟩ := mapRead_ok _ _ _ _ h
            subst hl
            obtain ⟨happ, hlenraw⟩ := readExact_append (8 * n) r2 raw rest hraw
            rw [hin, h4]
            simp only [writeListPayload, hlenraw, Nat.mul_div_cancel_left n (by norm_num : 0 < 8),
              List.cons_append, List.cons.injEq, true_and, List.append_assoc]
            rw [happ]
            exact h32app
          rw [if_neg h4] at h
          by_cases h5 : t = FLOAT_ID
          · rw [if_pos h5] at h
            obtain ⟨vs, hvs, hl⟩ := mapRead_ok _ _ _ _ h
            subst hl
            obtain ⟨hlen, happ⟩ := parseN_spec (readBits 4) (natToBeBytes 4)
              (fun i v r hh => readBits_spec 4 i v r hh) n r2 vs rest hvs
            rw [hin, h5]
            simp only [writeListPayload, hlen, List.cons_append, List.cons.injEq, true_and,
              List.append_assoc]
            rw [happ]
            exact h32app
          rw [if_neg h5] at h
          by_cases h6 : t = DOUBLE_ID
          · rw [if_pos h6] at h
            obtain ⟨vs, hvs, hl⟩ := mapRead_ok _ _ _ _ h
            subst hl
            obtain ⟨hlen, happ⟩ := parseN_spec (readBits 8) (natToBeBytes 8)
              (fun i v r hh => readBits_spec 8 i v r hh) n r2 vs rest hvs
            rw [hin, h6]
            simp only [writeListPayload, hlen, List.cons_append, List.cons.injEq, true_and,
              List.append_assoc]
            rw [happ]
            exact h32app
          rw [if_neg h6] at h
          by_cases h7 : t = BYTE_ARRAY_ID
          · rw [if_pos h7] at h
            obtain ⟨vs, hvs, hl⟩ := mapRead_ok _ _ _ _ h
            subst hl
            obtain ⟨hlen, happ⟩ := parseN_spec readByteArrayPayload writeByteArrayPayload
              (fun i v r hh => readByteArrayPayload_spec i v r hh) n r2 vs rest hvs
            rw [hin, h7]
            simp only [writeListPayload, hlen, List.cons_append, List.cons.injEq, true_and,
              List.append_assoc]
            rw [happ]
            exact h32app
          rw [if_neg h7] at h
          by_cases h8 : t = STRING_ID
          · rw [if_pos h8] at h
            obtain ⟨vs, hvs, hl⟩ := mapRead_ok _ _ _ _ h
            subst hl
            obtain ⟨hlen, happ⟩ := parseN_spec read_string write_string
              (fun i v r hh => read_string_spec i v r hh) n r2 vs rest hvs
            rw [hin, h8]
            simp only [writeListPayload, hlen, List.cons_append, List.cons.injEq, true_and,
              List.append_assoc]
            rw [happ]
            exact h32app
          rw [if_neg h8] at h
          by_cases h9 : t = LIST_ID
          · rw [if_pos h9] at h
            obtain ⟨ls, hls, hl⟩ := mapRead_ok _ _ _ _ h
            subst hl
            obtain ⟨hlen, happ⟩ := ihE (depth + 1) n r2 ls rest hls
            rw [hin, h9]
            simp only [writeListPayload, hlen, List.cons_append, List.cons.injEq, true_and,
              List.append_assoc]
            rw [happ]
            exact h32app
          rw [if_neg h9] at h
          by_cases h10 : t = COMPOUND_ID
          · rw [if_pos h10] at h
            obtain ⟨cs, hcs, hl⟩ := mapRead_ok _ _ _ _ h
            subst hl
            obtain ⟨hlen, happ⟩ := ihD (depth + 1) n r2 cs rest hcs
            rw [hin, h10]
            simp only [writeListPayload, hlen, List.cons_append, List.cons.injEq, true_and,
              List.append_assoc]
            rw [happ]
            exact h32app
          rw [if_neg h10] at h
          by_cases h11 : t = INT_ARRAY_ID
          · rw [if_pos h11] at h
            obtain ⟨vs, hvs, hl⟩ := mapRead_ok _ _ _ _ h
            subst hl
            obtain ⟨hlen, happ⟩ := parseN_spec (readRawPayload 4) (writeRawPayload 4)
              (fun i v r hh => readRawPayload_spec 4 (by norm_num) i v r hh) n r2 vs rest hvs
            rw [hin, h11]
            simp only [writeListPayload, hlen, List.cons_append, List.cons.injEq, true_and,
              List.append_assoc]
            rw [happ]
            exact h32app
          rw [if_neg h11] at h
          by_cases h12 : t = LONG_ARRAY_ID
          · rw [if_pos h12] at h
            obtain ⟨vs, hvs, hl⟩ := mapRead_ok _ _ _ _ h
            subst hl
            obtain ⟨hlen, happ⟩ := parseN_spec (readRawPayload 8) (writeRawPayload 8)
              (fun i v r hh => readRawPayload_spec 8 (by norm_num) i v r hh) n r2 vs rest hvs
            rw [hin, h12]
            simp only [writeListPayload, hlen, List.cons_append, List.cons.injEq, true_and,
              List.append_assoc]
            rw [happ]
            exact h32app
          rw [if_neg h12] at h
          exact absurd h (by simp)
    -- parseCompounds
    · intro depth n input cs rest h
      simp only [parseCompounds] at h
      cases n with
      | zero =>
        injection h with h'
        injection h' with h1 h2
        subst h1; subst h2
        exact ⟨rfl, by simp [writeCompoundsElems]⟩
      | succ m =>
        cases hc : parseCompound fuel depth input with
        | error e => simp only [hc] at h; exact absurd h (by simp)
        | ok p =>
          obtain ⟨c, r⟩ := p
          simp only [hc] at h
          cases hcs : parseCompounds fuel depth m r with
          | error e => simp only [hcs] at h; exact absurd h (by simp)
          | ok q =>
            obtain ⟨cs2, r2⟩ := q
            simp only [hcs] at h
            injection h with h'
            injection h' with h1 h2
            obtain ⟨hlen, happ⟩ := ihD depth m r cs2 r2 hcs
            have hb := ihB depth input c r hc
            subst h1; subst h2
            obtain ⟨es⟩ := c
            refine ⟨by simp [hlen], ?_⟩
            simp only [writeCompoundsElems, List.append_assoc]
            rw [happ]
            simpa [CompoundTag.write, CompoundTag.values] using hb
    -- parseLists
    · intro depth n input ls rest h
      simp only [parseLists] at h
      cases n with
      | zero =>
        injection h with h'
        injection h' with h1 h2
        subst h1; subst h2
        exact ⟨rfl, by simp [writeListsElems]⟩
      | succ m =>
        cases hl : parseList fuel depth input with
        | error e => simp only [hl] at h; exact absurd h (by simp)
        | ok p =>
          obtain ⟨l, r⟩ := p
          simp only [hl] at h
          cases hls : parseLists fuel depth m r with
          | error e => simp only [hls] at h; exact absurd h (by simp)
          | ok q =>
            obtain ⟨ls2, r2⟩ := q
            simp only [hls] at h
            injection h with h'
            injection h' with h1 h2
            obtain ⟨hlen, happ⟩ := ihE depth m r ls2 r2 hls
            have hb := ihC depth input l r hl
            subst h1; subst h2
            refine ⟨by simp [hlen], ?_⟩
            simp only [writeListsElems, List.append_assoc]
            rw [happ]
            exact hb

/-- C1 counterexample: the buffer `0x00 0xFF` decodes successfully — to the
absent document, with the trailing byte left unconsumed by the cursor — but
re-encoding the decoded document writes only `0x00`, which is not
byte-for-byte equal to the buffer.  So the claim as stated (equality with the
whole buffer) fails. -/
theorem c1_trailing_byte_counterexample :
    OptionalNbt.read [0, 255] = .ok (.None, [255])
      ∧ OptionalNbt.write .None ≠ [0, 255] :=
  ⟨rfl, by decide⟩

/-- C1 (amended): for every byte buffer from which `OptionalNbt::read`
successfully decodes a document, writing the document with
`OptionalNbt::write` reproduces exactly the prefix of the buffer that the
read consumed (the whole buffer whenever the read consumed it all). -/
theorem c1_read_write_roundtrip (input : List Byte) (d : OptionalNbt) (rest : List Byte)
    (h : OptionalNbt.read input = .ok (d, rest)) :
    OptionalNbt.write d ++ rest = input := by
  unfold OptionalNbt.read at h
  cases hu : read_u8 input with
  | error e => simp only [hu] at h; exact absurd h (by simp)
  | ok p =>
    obtain ⟨rt, r1⟩ := p
    simp only [hu] at h
    have hin := read_u8_ok _ _ _ hu
    by_cases h0 : rt = END_ID
    · rw [if_pos h0] at h
      injection h with h'
      injection h' with h1 h2
      subst h1; subst h2
      simp [OptionalNbt.write, hin, h0]
    · rw [if_neg h0] at h
      by_cases h10 : rt ≠ COMPOUND_ID
      · rw [if_pos h10] at h
        exact absurd h (by simp)
      · rw [if_neg h10] at h
        push_neg at h10
        cases hs : read_string r1 with
        | error e => simp only [hs] at h; exact absurd h (by simp)
        | ok q =>
          obtain ⟨name, r2⟩ := q
          simp only [hs] at h
          cases hc : parseCompound (4 * r2.length + 8) 0 r2 with
          | error e => simp only [hc] at h; exact absurd h (by simp)
          | ok q2 =>
            obtain ⟨tag, r3⟩ := q2
            simp only [hc] at h
            injection h with h'
            injection h' with h1 h2
            subst h1; subst h2
            have hb := (parse_write_roundtrip (4 * r2.length + 8)).2.2.1 0 r2 tag r3 hc
            have hws := read_string_spec r1 name r2 hs
            rw [hin, h10]
            simp only [OptionalNbt.write, Nbt.write, List.cons_append, List.cons.injEq,
              true_and, List.append_assoc, List.singleton_append, List.nil_append]
            rw [hb]
            exact hws

/-- C1 witness: a concrete successful read whose re-encoding reproduces the
consumed bytes. -/
theorem c1_read_write_roundtrip_witness :
    OptionalNbt.read [10, 0, 0, 0] = .ok (.Some ⟨[], .mk []⟩, [])
      ∧ OptionalNbt.write (.Some ⟨[], .mk []⟩) ++ ([] : List Byte) = [10, 0, 0, 0] :=
  ⟨rfl, c1_read_write_roundtrip [10, 0, 0, 0] (.Some ⟨[], .mk []⟩) [] rfl⟩

/-- C2: writing a present root document emits exactly the compound
discriminant byte (10), the encoded name, the compound body, and one
trailing end byte (0), matching the wire layout
`[type:u8][name:MString][compound-body]` with the body terminated by a
single `0x00`. -/
theorem c2_write_present_layout (name : Bytes) (tag : CompoundTag) :
    OptionalNbt.write (.Some ⟨name, tag⟩)
      = [(10 : Byte)] ++ write_string name ++ CompoundTag.write tag ++ [(0 : Byte)] := by
  simp [OptionalNbt.write, Nbt.write, COMPOUND_ID, END_ID]

/-- C3: a buffer whose first byte is `0x00` decodes to the absent document
(not an error), and writing the absent document produces exactly the single
byte `0x00`. -/
theorem c3_absent_document (rest : List Byte) :
    OptionalNbt.read ((0 : Byte) :: rest) = .ok (.None, rest)
      ∧ OptionalNbt.write .None = [(0 : Byte)] :=
  ⟨rfl, rfl⟩

/-- C4: a first byte that is neither the end discriminant (0) nor the
compound discriminant (10) fails with `InvalidRootType` carrying that exact
byte; an empty buffer fails with `UnexpectedEof` instead. -/
theorem c4_invalid_root_type :
    (∀ (b : Byte) (rest : List Byte), b ≠ 0 → b ≠ 10 →
        OptionalNbt.read (b :: rest) = .error (.InvalidRootType b))
      ∧ OptionalNbt.read [] = .error .UnexpectedEof := by
  refine ⟨?_, rfl⟩
  intro b rest h0 h10
  have h0' : ¬(b = END_ID) := h0
  have h10' : ¬(b = COMPOUND_ID) := h10
  simp [OptionalNbt.read, read_u8, h0', h10']

/-- C4 witness: the root byte 5 with an empty remainder. -/
theorem c4_invalid_root_type_witness :
    OptionalNbt.read [(5 : Byte)] = .error (.InvalidRootType 5) :=
  c4_invalid_root_type.1 5 [] (by decide) (by decide)

/-- C5: `is_plain_ascii` returns true exactly when every byte of the slice
has its high bit clear (each byte is examined, however the length falls
across the 32/16/8/4-byte chunk splits), and on an all-plain-ASCII slice
`to_str` returns a borrowed (zero-copy) string whose code units equal the
slice's bytes. -/
theorem c5_plain_ascii_fast_path (s : List Byte) :
    (is_plain_ascii s = true ↔ ∀ b ∈ s, b.val < 128)
      ∧ ((∀ b ∈ s, b.val < 128) →
          Mutf8Str.to_str s = some (.Borrowed (s.map Fin.val))) := by
  have hiff : is_plain_ascii s = true ↔ ∀ b ∈ s, b.val < 128 := by
    rw [is_plain_ascii_eq_not_any]
    simp only [chunkHasHighBit, Bool.not_eq_true', List.any_eq_false, Bool.not_eq_true]
    exact ⟨fun hall b hb => (hasHighBit_iff b).mp (hall b hb),
           fun hall b hb => (hasHighBit_iff b).mpr (hall b hb)⟩
  refine ⟨hiff, fun hall => ?_⟩
  unfold Mutf8Str.to_str
  rw [if_pos (hiff.mpr hall)]

set_option maxRecDepth 8000 in
/-- C5 witness: the two-byte ASCII slice `hi`. -/
theorem c5_plain_ascii_fast_path_witness :
    is_plain_ascii [104, 105] = true
      ∧ Mutf8Str.to_str [104, 105] = some (.Borrowed [104, 105]) :=
  ⟨(c5_plain_ascii_fast_path [104, 105]).1.mpr (by decide),
   (c5_plain_ascii_fast_path [104, 105]).2 (by decide)⟩

/-- C6: `Tag::id` returns the fixed wire discriminant of each variant
(Byte=1, Short=2, Int=3, Long=4, Float=5, Double=6, ByteArray=7, String=8,
List=9, Compound=10, IntArray=11, LongArray=12) and never returns 0. -/
theorem c6_tag_id_discriminants :
    (∀ v, Tag.id (.Byte v) = 1) ∧ (∀ v, Tag.id (.Short v) = 2)
      ∧ (∀ v, Tag.id (.Int v) = 3) ∧ (∀ v, Tag.id (.Long v) = 4)
      ∧ (∀ b, Tag.id (.Float b) = 5) ∧ (∀ b, Tag.id (.Double b) = 6)
      ∧ (∀ bs, Tag.id (.ByteArray bs) = 7) ∧ (∀ s, Tag.id (.String s) = 8)
      ∧ (∀ l, Tag.id (.List l) = 9) ∧ (∀ c, Tag.id (.Compound c) = 10)
      ∧ (∀ raw, Tag.id (.IntArray raw) = 11) ∧ (∀ raw, Tag.id (.LongArray raw) = 12)
      ∧ (∀ t : Tag, Tag.id t ≠ 0) := by
  refine ⟨fun _ => rfl, fun _ => rfl, fun _ => rfl, fun _ => rfl, fun _ => rfl, fun _ => rfl,
    fun _ => rfl, fun _ => rfl, fun _ => rfl, fun _ => rfl, fun _ => rfl, fun _ => rfl, ?_⟩
  intro t
  cases t <;> simp [Tag.id, BYTE_ID, SHORT_ID, INT_ID, LONG_ID, FLOAT_ID, DOUBLE_ID,
    BYTE_ARRAY_ID, STRING_ID, LIST_ID, COMPOUND_ID, INT_ARRAY_ID, LONG_ARRAY_ID]

/-- C7: each typed accessor is `some` exactly when the stored variant
matches the requested type and `none` otherwise; in particular `int` on a
`Short` is `none` (no widening) and `int` on a `Float` (and `float` on an
`Int`) is `none` (no cast). -/
theorem c7_accessors_no_coercion (t : Tag) :
    (t.byte.isSome ↔ ∃ v, t = .Byte v)
      ∧ (t.short.isSome ↔ ∃ v, t = .Short v)
      ∧ (t.int.isSome ↔ ∃ v, t = .Int v)
      ∧ (t.long.isSome ↔ ∃ v, t = .Long v)
      ∧ (t.float.isSome ↔ ∃ b, t = .Float b)
      ∧ (t.double.isSome ↔ ∃ b, t = .Double b)
      ∧ (t.byte_array.isSome ↔ ∃ bs, t = .ByteArray bs)
      ∧ (t.string.isSome ↔ ∃ s, t = .String s)
      ∧ (t.list.isSome ↔ ∃ l, t = .List l)
      ∧ (t.compound.isSome ↔ ∃ c, t = .Compound c)
      ∧ (t.int_array.isSome ↔ ∃ raw, t = .IntArray raw)
      ∧ (t.long_array.isSome ↔ ∃ raw, t = .LongArray raw)
      ∧ (∀ v, (Tag.Short v).int = none) ∧ (∀ b, (Tag.Float b).int = none)
      ∧ (∀ v, (Tag.Int v).float = none) := by
  cases t <;>
    simp [Tag.byte, Tag.short, Tag.int, Tag.long, Tag.float, Tag.double, Tag.byte_array,
      Tag.string, Tag.list, Tag.compound, Tag.int_array, Tag.long_array]

/-- C8: the string codec encodes U+0000 as exactly `C0 80` and U+10401 as
exactly `ED A0 81 ED B0 81`, and decoding each byte sequence (via
`Mutf8Str::to_str`, whose input here is not plain ASCII, so the full decode
runs) reproduces the original code point. -/
theorem c8_mutf8_fidelity :
    Mutf8Str.from_str [0] = [0xC0, 0x80]
      ∧ Mutf8Str.from_str [0x10401] = [0xED, 0xA0, 0x81, 0xED, 0xB0, 0x81]
      ∧ (Mutf8Str.to_str [0xC0, 0x80]).map Cow.value = some [0]
      ∧ (Mutf8Str.to_str [0xED, 0xA0, 0x81, 0xED, 0xB0, 0x81]).map Cow.value
          = some [0x10401] :=
  ⟨rfl, rfl, rfl, rfl⟩

/-- C9: converting a view to the owned form copies the bytes, and
converting back (`as_str`) yields the same byte sequence; the owned-to-view
conversion is the identity on the underlying bytes. -/
theorem c9_owned_view_conversions :
    (∀ s : Mutf8Str, (Mutf8Str.to_owned s).as_str = s)
      ∧ (∀ m : Mutf8String, m.as_str = m.vec) :=
  ⟨fun _ => rfl, fun _ => rfl⟩

/-- C10: `Mutf8Str::from_slice` validates nothing — it returns a view of
exactly the given bytes for every slice — and on a slice that is neither
plain ASCII nor valid modified encoding (here the single byte `0x80`), the
subsequent `to_str` hits the `expect` and panics (modelled as `none`)
rather than returning an error value. -/
theorem c10_from_slice_unvalidated :
    (∀ b : List Byte, (Mutf8Str.from_slice b).as_bytes = b)
      ∧ Mutf8Str.to_str (Mutf8Str.from_slice [0x80]) = none :=
  ⟨fun _ => rfl, rfl⟩
